import Mathlib

/-!
Verification of the stategen replay core
(`beacon-chain/state/stategen/replay.go`).

The Go code is shallowly embedded: slots and roots are natural numbers,
the beacon state is a record carrying its slot plus instrumentation
fields that opaque transition primitives may use, the storage engine is
a function from a slot range to the block/root batch it would return,
and the ambient cancellation context is a boolean flag (`true` means the
context is cancelled, i.e. `ctx.Err() != nil`).  The opaque transition
primitives (`transition.ProcessSlotsCore`, `transition.ProcessBlockForStateRoot`)
are parameters gathered in a `Prim` record.  Fallible Go functions
returning `(value, error)` become `Except Err value`.
-/

namespace Stategen

/-- Slots are logical time indices. -/
abbrev Slot := Nat

/-- Block roots are 32-byte hashes, modelled as naturals. -/
abbrev Root := Nat

/-- A signed beacon block as seen by the replay core: its slot, its
parent root, its own root (the hash storage keys it by), and a nilness
flag standing for `blocks.BeaconBlockIsNil`. -/
structure Block where
  slot : Slot
  parentRoot : Root
  root : Root
  isNil : Bool := false
deriving DecidableEq, Repr, Inhabited

/-- The beacon state: its slot, plus instrumentation fields
(`applied`, `advanced`) that concrete transition primitives may use to
record the calls they receive.  The replay core itself reads only
`slot`. -/
structure RState where
  slot : Slot
  applied : List Slot
  advanced : List (Slot × Slot)
deriving DecidableEq, Repr, Inhabited

/-- Error taxonomy of the replay core, mirroring the error values and
wrapped errors produced in `replay.go`. -/
inductive Err where
  | invalidRange
  | storeInconsistency
  | terminalNotFound
  | unknownState
  | slotRegression
  | nilBlock
  | cancelled
  | slotProcessingFailed (cause : Err)
  | blockProcessingFailed (cause : Err)
  | primFailure (code : Nat)
deriving DecidableEq, Repr

/-- The storage engine `beaconDB.Blocks` restricted to the slot-range
filter used by `replay.go`: given start and end slot it returns the
batch of blocks and their roots (aligned by index, ascending slot
order), or a storage error. -/
abbrev DB := Slot → Slot → Except Err (List Block × List Root)

/-- The opaque transition primitives consumed by the core.  Each takes
the cancellation flag, mirroring the `ctx` argument passed through in
the Go code. -/
structure Prim where
  processSlotsCore : Bool → RState → Slot → Except Err RState
  processBlockForStateRoot : Bool → RState → Block → Except Err RState

/-- Slot of the block at index `i` of the batch (Go `blocks[i].Block().Slot()`). -/
def slotAt (bs : List Block) (i : Nat) : Slot :=
  (bs.getD i default).slot

/-- Root at index `i` of the batch (Go `blockRoots[i]`). -/
def rootAt (rs : List Root) (i : Nat) : Root :=
  rs.getD i 0

/-- The same-slot narrowing loop of `loadBlocks` (replay.go lines
102-111), recast as recursion on the running `length`.  The argument is
the current value of Go's `length` variable; the result is its value
after the loop, or `Err.cancelled` if the loop body observed a
cancelled context.  At pattern `n+1`: `length-1 = n`, `length-2 = n-1`;
after the body's `length--` the inner check reads `blockRoots[length-2]
= rootAt rs (n-2)` and, on a hit, decrements once more and breaks. -/
def narrowLen (c : Bool) (bs : List Block) (rs : List Root) (r : Root) : Nat → Except Err Nat
  | 0 => .ok 0
  | n + 1 =>
    if 3 ≤ n + 1 ∧ slotAt bs n = slotAt bs (n - 1) ∧ rootAt rs n ≠ r then
      if c then .error .cancelled
      else if rootAt rs (n - 2) = r then .ok (n - 1)
      else narrowLen c bs rs r n
    else .ok (n + 1)

/-- The backward parent-chain extraction loop of `loadBlocks`
(replay.go lines 117-128).  Go appends accepted blocks at the end of
`filteredBlocks` and reads the last element; here the accumulator is
kept reversed (newest acceptance at the head) and reversed once at the
end, so Go's `filteredBlocks[len-1]` is `acc.headD default`.  The
`Nat` argument is one past the next index to examine: pattern `k+1`
examines batch index `k`, matching Go's `for i := length - 2; i >= 0;
i--` when started at `length - 1`. -/
def chainFilter (c : Bool) (bs : List Block) (rs : List Root) : List Block → Nat → Except Err (List Block)
  | acc, 0 => .ok acc.reverse
  | acc, k + 1 =>
    if c then .error .cancelled
    else if (acc.headD default).parentRoot = rootAt rs k then
      chainFilter c bs rs (bs.getD k default :: acc) k
    else chainFilter c bs rs acc k

/-- Body of `loadBlocks` after the storage query returned the batch
`(bs, rs)` (replay.go lines 89-130): length-alignment check, empty
batch early return, same-slot narrowing, terminal-root check, and
parent-chain extraction seeded with the block at the narrowed
boundary. -/
def loadBlocksPost (c : Bool) (endBlockRoot : Root) (bs : List Block) (rs : List Root) : Except Err (List Block) :=
  if bs.length ≠ rs.length then .error .storeInconsistency
  else if bs.length = 0 then .ok []
  else
    match narrowLen c bs rs endBlockRoot bs.length with
    | .error e => .error e
    | .ok L =>
      if rootAt rs (L - 1) ≠ endBlockRoot then .error .terminalNotFound
      else chainFilter c bs rs [bs.getD (L - 1) default] (L - 1)

/-- `loadBlocks` (replay.go lines 79-131): range validation, storage
query, then `loadBlocksPost`.  This is the spec's
`load_canonical_segment`. -/
def loadBlocks (c : Bool) (startSlot endSlot : Slot) (endBlockRoot : Root) (db : DB) : Except Err (List Block) :=
  if endSlot < startSlot then .error .invalidRange
  else
    match db startSlot endSlot with
    | .error e => .error e
    | .ok (bs, rs) => loadBlocksPost c endBlockRoot bs rs

/-- The finalized-filter loop of `loadFinalizedBlocks` (replay.go lines
203-208): iterate the batch from newest to oldest, keeping blocks whose
root the store marks finalized.  The Go loop performs no cancellation
check. -/
def finalizedFilter (isFin : Root → Bool) : List (Block × Root) → List Block
  | [] => []
  | (b, r) :: rest =>
    if isFin r then b :: finalizedFilter isFin rest
    else finalizedFilter isFin rest

/-- `loadFinalizedBlocks` (replay.go lines 194-209): storage query,
length-alignment check, finalized filter walking the batch newest to
oldest.  This is the spec's `load_finalized_segment`.  The cancellation
flag is received (the Go function takes `ctx`) but, as in the source,
never consulted by the loop. -/
def loadFinalizedBlocks (_c : Bool) (startSlot endSlot : Slot) (db : DB) (isFin : Root → Bool) : Except Err (List Block) :=
  match db startSlot endSlot with
  | .error e => .error e
  | .ok (bs, rs) =>
    if bs.length ≠ rs.length then .error .storeInconsistency
    else .ok (finalizedFilter isFin ((bs.zip rs).reverse))

/-- `ReplayProcessSlots` (replay.go lines 174-190): nil-state check,
slot-regression check, no-op on equal slots, otherwise delegate to the
opaque `transition.ProcessSlotsCore`.  This is the spec's
`advance_slots`. -/
def ReplayProcessSlots (p : Prim) (c : Bool) (st : Option RState) (slot : Slot) : Except Err RState :=
  match st with
  | none => .error .unknownState
  | some s =>
    if s.slot > slot then .error .slotRegression
    else if s.slot = slot then .ok s
    else p.processSlotsCore c s slot

/-- `executeStateTransitionStateGen` (replay.go lines 138-168):
cancellation check, block nilness check, slot advance to the block's
slot (failure wrapped as could-not-process-slot), then the opaque block
transition (failure wrapped as could-not-process-block). -/
def executeStateTransitionStateGen (p : Prim) (c : Bool) (s : RState) (b : Block) : Except Err RState :=
  if c then .error .cancelled
  else if b.isNil then .error .nilBlock
  else
    match ReplayProcessSlots p c (some s) b.slot with
    | .error e => .error (.slotProcessingFailed e)
    | .ok s1 =>
      match p.processBlockForStateRoot c s1 b with
      | .error e => .error (.blockProcessingFailed e)
      | .ok s2 => .ok s2

/-- The block loop of `replayBlocks` (replay.go lines 41-56), given the
blocks in processing order (the Go loop walks `signed` from its last
index to index 0, i.e. processes `signed.reverse`).  Each iteration:
cancellation check, break once the target slot is reached, skip blocks
at or behind the state slot, otherwise apply the block. -/
def replayLoop (p : Prim) (c : Bool) (target : Slot) : RState → List Block → Except Err RState
  | s, [] => .ok s
  | s, b :: rest =>
    if c then .error .cancelled
    else if target ≤ s.slot then .ok s
    else if b.slot ≤ s.slot then replayLoop p c target s rest
    else
      match executeStateTransitionStateGen p c s b with
      | .error e => .error e
      | .ok s1 => replayLoop p c target s1 rest

/-- `replayBlocks` (replay.go lines 22-75): run the block loop over the
descending-slot input (guarded by `len(signed) > 0` as in the source),
then cover trailing skip slots with `ReplayProcessSlots` when the
target lies beyond the resulting state.  This is the spec's
`replay`. -/
def replayBlocks (p : Prim) (c : Bool) (s : RState) (signed : List Block) (target : Slot) : Except Err RState :=
  match (match signed with
         | [] => Except.ok s
         | _ :: _ => replayLoop p c target s signed.reverse) with
  | .error e => .error e
  | .ok s1 =>
    if s1.slot < target then ReplayProcessSlots p c (some s1) target
    else .ok s1

/-- A concrete instantiation of the opaque primitives that records its
calls in the state's instrumentation fields: advancing slots logs the
`(from, to)` pair and moves the slot (failing on a backward request, as
the real `ProcessSlotsCore` would); applying a block logs the block's
slot and leaves the state slot unchanged (the state was already
advanced to the block's slot). -/
def tracePrim : Prim where
  processSlotsCore := fun _c s t =>
    if s.slot ≤ t then .ok { s with slot := t, advanced := s.advanced ++ [(s.slot, t)] }
    else .error (.primFailure 0)
  processBlockForStateRoot := fun _c s b =>
    .ok { s with applied := s.applied ++ [b.slot] }

/-! ### Helper lemmas -/

/-- Head of a nonempty list as an option is its default-headed head. -/
lemma head?_of_ne_nil {α : Type} (l : List α) (d : α) (h : l ≠ []) :
    l.head? = some (l.headD d) := by
  cases l with
  | nil => exact absurd rfl h
  | cons a t => rfl

/-- The narrowing loop with a live (non-cancelled) context always
terminates with a length that is positive (when it started positive)
and no larger than it started. -/
lemma narrowLen_ok (bs : List Block) (rs : List Root) (r : Root) :
    ∀ n, ∃ L, narrowLen false bs rs r n = .ok L ∧ L ≤ n ∧ (1 ≤ n → 1 ≤ L) := by
  intro n
  induction n with
  | zero => exact ⟨0, rfl, Nat.le_refl 0, by omega⟩
  | succ n ih =>
    by_cases h : 3 ≤ n + 1 ∧ slotAt bs n = slotAt bs (n - 1) ∧ rootAt rs n ≠ r
    · have h1 : 3 ≤ n + 1 := h.1
      by_cases h2 : rootAt rs (n - 2) = r
      · refine ⟨n - 1, ?_, by omega, by omega⟩
        simp only [narrowLen, if_pos h]
        simp [h2]
      · obtain ⟨L, hL, hle, hpos⟩ := ih
        refine ⟨L, ?_, by omega, fun _ => hpos (by omega)⟩
        simp only [narrowLen, if_pos h]
        simp [h2, hL]
    · exact ⟨n + 1, by simp only [narrowLen, if_neg h], by omega, by omega⟩

/-- The chain-extraction loop with a live context never fails, returns
a nonempty segment, and keeps the seed at the head of the output. -/
lemma chainFilter_ok (bs : List Block) (rs : List Root) (seed : Block) :
    ∀ k front, ∃ out, chainFilter false bs rs (front ++ [seed]) k = .ok out ∧
      out ≠ [] ∧ out.headD default = seed := by
  intro k
  induction k with
  | zero =>
    intro front
    refine ⟨(front ++ [seed]).reverse, rfl, by simp, ?_⟩
    simp [List.reverse_append]
  | succ k ih =>
    intro front
    by_cases hc : ((front ++ [seed]).headD default).parentRoot = rootAt rs k
    · obtain ⟨out, hout, hne, hhd⟩ := ih (bs.getD k default :: front)
      refine ⟨out, ?_, hne, hhd⟩
      simp only [chainFilter, if_pos hc]
      simpa using hout
    · obtain ⟨out, hout, hne, hhd⟩ := ih front
      refine ⟨out, ?_, hne, hhd⟩
      simp only [chainFilter, if_neg hc]
      simpa using hout

/-- Every successful output of the chain-extraction loop is
parent-linked, provided the accumulator was (in reversed orientation)
and the root batch is consistent with the blocks it indexes. -/
lemma chainFilter_chain (bs : List Block) (rs : List Root)
    (hroots : ∀ i, i < bs.length → rootAt rs i = (bs.getD i default).root) :
    ∀ k acc, acc ≠ [] → k ≤ bs.length →
      List.Chain' (fun a b => b.parentRoot = a.root) acc →
      ∀ out, chainFilter false bs rs acc k = .ok out →
        List.Chain' (fun a b => a.parentRoot = b.root) out := by
  intro k
  induction k with
  | zero =>
    intro acc hne hk hch out hout
    have : out = acc.reverse := by
      simpa [chainFilter] using hout.symm
    subst this
    rw [List.chain'_reverse]
    exact hch
  | succ k ih =>
    intro acc hne hk hch out hout
    by_cases hc : (acc.headD default).parentRoot = rootAt rs k
    · simp only [chainFilter, if_pos hc] at hout
      have hk' : k < bs.length := by omega
      refine ih (bs.getD k default :: acc) (by simp) (by omega) ?_ out (by simpa using hout)
      rw [List.chain'_cons']
      refine ⟨?_, hch⟩
      intro y hy
      rw [head?_of_ne_nil acc default hne] at hy
      have hy' : y = acc.headD default := by
        injection hy with hy'
        exact hy'.symm
      subst hy'
      rw [hc, hroots k hk']
    · simp only [chainFilter, if_neg hc] at hout
      exact ih acc hne (by omega) hch out (by simpa using hout)

/-- Unfolding `loadBlocks` when the range is valid and storage answers. -/
lemma loadBlocks_eq_post (c : Bool) (s e : Slot) (r : Root) (db : DB)
    (bs : List Block) (rs : List Root)
    (hrange : s ≤ e) (hdb : db s e = .ok (bs, rs)) :
    loadBlocks c s e r db = loadBlocksPost c r bs rs := by
  unfold loadBlocks
  rw [if_neg (Nat.not_lt.mpr hrange), hdb]

/-- Unfolding `loadBlocksPost` past the length and emptiness guards. -/
lemma loadBlocksPost_eq (c : Bool) (r : Root) (bs : List Block) (rs : List Root)
    (hlen : bs.length = rs.length) (hne : bs.length ≠ 0) :
    loadBlocksPost c r bs rs =
      match narrowLen c bs rs r bs.length with
      | .error e => .error e
      | .ok L =>
        if rootAt rs (L - 1) ≠ r then .error .terminalNotFound
        else chainFilter c bs rs [bs.getD (L - 1) default] (L - 1) := by
  unfold loadBlocksPost
  rw [if_neg (show ¬(bs.length ≠ rs.length) by omega), if_neg hne]

/-- The redundant nonemptiness guard of `replayBlocks` can be dropped:
the block loop on an empty list already returns the state unchanged. -/
lemma replayBlocks_eq_loop (p : Prim) (c : Bool) (s : RState) (signed : List Block) (target : Nat) :
    replayBlocks p c s signed target =
      match replayLoop p c target s signed.reverse with
      | .error e => .error e
      | .ok s1 =>
        if s1.slot < target then ReplayProcessSlots p c (some s1) target
        else .ok s1 := by
  cases signed <;> rfl

/-- `replayBlocks` when the block loop succeeds: only the trailing
skip-slot advance remains. -/
lemma replayBlocks_of_loop_ok (p : Prim) (c : Bool) (s : RState) (signed : List Block)
    (target : Nat) (s1 : RState)
    (hm : replayLoop p c target s signed.reverse = .ok s1) :
    replayBlocks p c s signed target =
      if s1.slot < target then ReplayProcessSlots p c (some s1) target
      else .ok s1 := by
  rw [replayBlocks_eq_loop, hm]

/-- `replayBlocks` propagates a block-loop failure unchanged. -/
lemma replayBlocks_of_loop_err (p : Prim) (c : Bool) (s : RState) (signed : List Block)
    (target : Nat) (e : Err)
    (hm : replayLoop p c target s signed.reverse = .error e) :
    replayBlocks p c s signed target = .error e := by
  rw [replayBlocks_eq_loop, hm]

/-- A cancelled context aborts the block loop at its first iteration. -/
lemma replayLoop_cancelled (p : Prim) (target : Nat) :
    ∀ (l : List Block) (s : RState), l ≠ [] →
      replayLoop p true target s l = .error .cancelled := by
  intro l s hl
  cases l with
  | nil => exact absurd rfl hl
  | cons b rest => rfl

/-- Once the target slot is reached, the block loop stops immediately
and returns the state unchanged. -/
lemma replayLoop_break (p : Prim) (target : Nat) :
    ∀ (l : List Block) (s : RState), target ≤ s.slot →
      replayLoop p false target s l = .ok s := by
  intro l s h
  cases l with
  | nil => rfl
  | cons b rest => simp [replayLoop, if_pos h]

/-- Blocks at or behind the current state slot are skipped by the
block loop: a leading run of such blocks does not affect the result. -/
lemma replayLoop_skip (p : Prim) (target : Nat) :
    ∀ (pre rest : List Block) (s : RState), (∀ b ∈ pre, b.slot ≤ s.slot) →
      replayLoop p false target s (pre ++ rest) = replayLoop p false target s rest := by
  intro pre
  induction pre with
  | nil => intro rest s _; rfl
  | cons b pre ih =>
    intro rest s hpre
    by_cases ht : target ≤ s.slot
    · rw [replayLoop_break p target ((b :: pre) ++ rest) s ht,
        replayLoop_break p target rest s ht]
    · have hb : b.slot ≤ s.slot := hpre b (by simp)
      calc replayLoop p false target s ((b :: pre) ++ rest)
          = replayLoop p false target s (pre ++ rest) := by
            simp [replayLoop, if_neg ht, if_pos hb]
        _ = replayLoop p false target s rest := ih rest s (fun x hx => hpre x (by simp [hx]))

/-- Slot monotonicity of `ReplayProcessSlots`, given that the opaque
slot-advance primitive never decreases the slot. -/
lemma RPS_mono (p : Prim)
    (hsc : ∀ c s t s2, p.processSlotsCore c s t = .ok s2 → s.slot ≤ s2.slot) :
    ∀ c s t s2, ReplayProcessSlots p c (some s) t = .ok s2 → s.slot ≤ s2.slot := by
  intro c s t s2 h
  simp only [ReplayProcessSlots] at h
  split at h
  · exact absurd h (by simp)
  · split at h
    · injection h with h; subst h; exact Nat.le_refl _
    · exact hsc c s t s2 h

/-- Slot monotonicity of the trusted block applier, given monotone
primitives. -/
lemma exec_mono (p : Prim)
    (hsc : ∀ c s t s2, p.processSlotsCore c s t = .ok s2 → s.slot ≤ s2.slot)
    (hbc : ∀ c s b s2, p.processBlockForStateRoot c s b = .ok s2 → s.slot ≤ s2.slot) :
    ∀ c s b s2, executeStateTransitionStateGen p c s b = .ok s2 → s.slot ≤ s2.slot := by
  intro c s b s2 h
  unfold executeStateTransitionStateGen at h
  split at h
  · exact absurd h (by simp)
  · split at h
    · exact absurd h (by simp)
    · cases hm : ReplayProcessSlots p c (some s) b.slot with
      | error e => rw [hm] at h; exact absurd h (by simp)
      | ok s1 =>
        rw [hm] at h
        cases hb2 : p.processBlockForStateRoot c s1 b with
        | error e => simp [hb2] at h
        | ok s3 =>
          simp only [hb2] at h
          injection h with h; subst h
          exact Nat.le_trans (RPS_mono p hsc c s b.slot s1 hm) (hbc c s1 b s3 hb2)

/-- Slot monotonicity of the block loop, given monotone primitives. -/
lemma replayLoop_mono (p : Prim)
    (hsc : ∀ c s t s2, p.processSlotsCore c s t = .ok s2 → s.slot ≤ s2.slot)
    (hbc : ∀ c s b s2, p.processBlockForStateRoot c s b = .ok s2 → s.slot ≤ s2.slot) :
    ∀ (l : List Block) (c : Bool) (target : Nat) (s s2 : RState),
      replayLoop p c target s l = .ok s2 → s.slot ≤ s2.slot := by
  intro l
  induction l with
  | nil =>
    intro c target s s2 h
    injection h with h; subst h; exact Nat.le_refl _
  | cons b rest ih =>
    intro c target s s2 h
    unfold replayLoop at h
    split at h
    · exact absurd h (by simp)
    · split at h
      · injection h with h; subst h; exact Nat.le_refl _
      · split at h
        · exact ih c target s s2 h
        · cases hm : executeStateTransitionStateGen p c s b with
          | error e => rw [hm] at h; exact absurd h (by simp)
          | ok s1 =>
            rw [hm] at h
            exact Nat.le_trans (exec_mono p hsc hbc c s b s1 hm) (ih c target s1 s2 h)

/-- The tracing primitives never decrease the state slot when
advancing slots. -/
lemma tracePrim_sc_mono :
    ∀ c s t s2, tracePrim.processSlotsCore c s t = .ok s2 → s.slot ≤ s2.slot := by
  intro c s t s2 h
  simp only [tracePrim] at h
  split at h
  · injection h with h
    subst h
    assumption
  · exact absurd h (by simp)

/-- The tracing slot-advance lands exactly on the requested slot. -/
lemma tracePrim_sc_exact :
    ∀ c s t s2, tracePrim.processSlotsCore c s t = .ok s2 → s2.slot = t := by
  intro c s t s2 h
  simp only [tracePrim] at h
  split at h
  · injection h with h
    subst h
    rfl
  · exact absurd h (by simp)

/-- The tracing block transition leaves the state slot unchanged. -/
lemma tracePrim_bc_mono :
    ∀ c s b s2, tracePrim.processBlockForStateRoot c s b = .ok s2 → s.slot ≤ s2.slot := by
  intro c s b s2 h
  simp only [tracePrim] at h
  injection h with h
  subst h
  exact Nat.le_refl _

/-- The tracing slot-advance never reports a core slot-regression
error (its own failures use the primitive-failure kind). -/
lemma tracePrim_no_slotRegression :
    ∀ c s t, tracePrim.processSlotsCore c s t ≠ .error .slotRegression := by
  intro c s t h
  simp only [tracePrim] at h
  split at h <;> simp at h

/-- `loadBlocksPost` once the narrowing outcome is known to succeed. -/
lemma loadBlocksPost_ok_narrow (c : Bool) (r : Root) (bs : List Block) (rs : List Root)
    (L : Nat) (hlen : bs.length = rs.length) (hne0 : bs.length ≠ 0)
    (hL : narrowLen c bs rs r bs.length = .ok L) :
    loadBlocksPost c r bs rs =
      if rootAt rs (L - 1) ≠ r then .error .terminalNotFound
      else chainFilter c bs rs [bs.getD (L - 1) default] (L - 1) := by
  rw [loadBlocksPost_eq c r bs rs hlen hne0, hL]

/-- `loadBlocksPost` propagates a narrowing failure unchanged. -/
lemma loadBlocksPost_err_narrow (c : Bool) (r : Root) (bs : List Block) (rs : List Root)
    (e : Err) (hlen : bs.length = rs.length) (hne0 : bs.length ≠ 0)
    (hL : narrowLen c bs rs r bs.length = .error e) :
    loadBlocksPost c r bs rs = .error e := by
  rw [loadBlocksPost_eq c r bs rs hlen hne0, hL]

/-! ### Concrete fixtures for counterexamples and witnesses -/

/-- Batch for the C1 counterexample: the terminal root 7 is present
(index 0), blocks sit at distinct slots 1 and 2. -/
def dbC1cx : DB := fun _ _ => .ok ([⟨1, 100, 7, false⟩, ⟨2, 7, 8, false⟩], [7, 8])

/-- Batch for the C1 witness: a two-block parent chain whose newest
block (root 6) is the terminal. -/
def dbC1w : DB := fun _ _ => .ok ([⟨1, 99, 5, false⟩, ⟨2, 5, 6, false⟩], [5, 6])

/-- Batch for the C2 counterexample: exactly two blocks at the same
slot 5; the older one (root 21) is the requested terminal. -/
def dbC2cx : DB := fun _ _ => .ok ([⟨5, 4, 21, false⟩, ⟨5, 4, 22, false⟩], [21, 22])

/-- Blocks for the C2 witness: three same-slot siblings; the oldest
(root 31) is the terminal, so narrowing drops two entries. -/
def bsC2w : List Block := [⟨5, 4, 31, false⟩, ⟨5, 4, 32, false⟩, ⟨5, 4, 33, false⟩]

/-- Storage for the C2 witness. -/
def dbC2w : DB := fun _ _ => .ok (bsC2w, [31, 32, 33])

/-- Single finalized block for the C8 counterexample. -/
def bC8cx : Block := ⟨7, 3, 40, false⟩

/-- Storage for the C8 counterexample and witness. -/
def dbC8cx : DB := fun _ _ => .ok ([bC8cx], [40])

/-- Single finalized block for the C9 counterexample. -/
def bC9cx : Block := ⟨8, 3, 50, false⟩

/-- Storage for the C9 counterexample. -/
def dbC9cx : DB := fun _ _ => .ok ([bC9cx], [50])

/-- Storage for the C9 witness, first-scan case: three same-slot
siblings whose newest root differs from the terminal 61, so the
narrowing loop runs. -/
def dbC9w1 : DB := fun _ _ => .ok ([⟨5, 4, 61, false⟩, ⟨5, 4, 62, false⟩, ⟨5, 4, 63, false⟩], [61, 62, 63])

/-- Storage for the C9 witness, second-scan case: a two-block chain
whose newest root 72 is the terminal, so only the parent-chain scan
runs. -/
def dbC9w2 : DB := fun _ _ => .ok ([⟨5, 4, 71, false⟩, ⟨6, 71, 72, false⟩], [71, 72])

/-! ### Claim theorems -/

/-- C3: `replay` iterates the descending-slot segment from its last
(oldest) element to its first (newest) element, applying each block
whose slot exceeds the current state slot in strictly increasing slot
order and finishing with a trailing slot advance: for a state at slot
10, segment `[block@15, block@12, block@11]` and target 20, blocks 11,
12, 15 are applied in that order (see the `applied` trace) and the
state is then advanced from slot 15 to slot 20 (last entry of the
`advanced` trace). -/
theorem C3_replay_iteration_order :
    replayBlocks tracePrim false ⟨10, [], []⟩
      [⟨15, 0, 115, false⟩, ⟨12, 0, 112, false⟩, ⟨11, 0, 111, false⟩] 20 =
    .ok ⟨20, [11, 12, 15], [(10, 11), (11, 12), (12, 15), (15, 20)]⟩ := rfl

/-- C4: `State.slot()` is non-decreasing through any replay operation:
`ReplayProcessSlots` (the spec's `advance_slots`),
`executeStateTransitionStateGen` (the per-block trusted apply) and
`replayBlocks` (the spec's `replay`) never return a state with a slot
below the input state's slot, assuming the opaque transition
primitives never decrease the slot. -/
theorem C4_slot_nondecreasing (p : Prim)
    (hsc : ∀ c s t s2, p.processSlotsCore c s t = .ok s2 → s.slot ≤ s2.slot)
    (hbc : ∀ c s b s2, p.processBlockForStateRoot c s b = .ok s2 → s.slot ≤ s2.slot) :
    (∀ c s t s2, ReplayProcessSlots p c (some s) t = .ok s2 → s.slot ≤ s2.slot) ∧
    (∀ c s b s2, executeStateTransitionStateGen p c s b = .ok s2 → s.slot ≤ s2.slot) ∧
    (∀ c s signed t s2, replayBlocks p c s signed t = .ok s2 → s.slot ≤ s2.slot) := by
  refine ⟨RPS_mono p hsc, exec_mono p hsc hbc, ?_⟩
  intro c s signed t s2 h
  cases hm : replayLoop p c t s signed.reverse with
  | error e =>
    rw [replayBlocks_of_loop_err p c s signed t e hm] at h
    exact absurd h (by simp)
  | ok s1 =>
    rw [replayBlocks_of_loop_ok p c s signed t s1 hm] at h
    by_cases h1 : s1.slot < t
    · rw [if_pos h1] at h
      exact Nat.le_trans (replayLoop_mono p hsc hbc _ c t s s1 hm)
        (RPS_mono p hsc c s1 t s2 h)
    · rw [if_neg h1] at h
      injection h with h
      subst h
      exact replayLoop_mono p hsc hbc _ c t s s1 hm

/-- Witness for C4 at the tracing primitives: a concrete replay from
slot 3 over one block at slot 7 with target 9 ends at slot 9 ≥ 3. -/
theorem C4_slot_nondecreasing_witness :
    (⟨3, [], []⟩ : RState).slot ≤ (⟨9, [7], [(3, 7), (7, 9)]⟩ : RState).slot :=
  (C4_slot_nondecreasing tracePrim tracePrim_sc_mono tracePrim_bc_mono).2.2
    false ⟨3, [], []⟩ [⟨7, 0, 17, false⟩] 9 ⟨9, [7], [(3, 7), (7, 9)]⟩ rfl

/-- C5: for every state and target with `target > state.slot()`,
`replay` on an empty segment returns exactly the result of
`advance_slots(state, target)` — the same state or the same error. -/
theorem C5_empty_segment_is_advance (p : Prim) (c : Bool) (s : RState) (t : Nat)
    (h : s.slot < t) :
    replayBlocks p c s [] t = ReplayProcessSlots p c (some s) t := by
  have he : replayBlocks p c s [] t =
      if s.slot < t then ReplayProcessSlots p c (some s) t else .ok s := rfl
  rw [he, if_pos h]

/-- Witness for C5 at the tracing primitives, state slot 4, target 8. -/
theorem C5_empty_segment_is_advance_witness :
    replayBlocks tracePrim false ⟨4, [], []⟩ [] 8 =
      ReplayProcessSlots tracePrim false (some ⟨4, [], []⟩) 8 :=
  C5_empty_segment_is_advance tracePrim false ⟨4, [], []⟩ 8 (by decide)

/-- C6: `replay` is idempotent against redundant prefixes — in the
descending-slot segment the oldest blocks form the trailing sublist
`pre`; if all of them are at or before the state's slot, replaying
`seg ++ pre` gives the same result as replaying `seg`. -/
theorem C6_redundant_prefix_idempotent (p : Prim) (s : RState) (t : Nat)
    (seg pre : List Block)
    (hdesc : List.Chain' (fun a b => b.slot < a.slot) (seg ++ pre))
    (hpre : ∀ b ∈ pre, b.slot ≤ s.slot) :
    replayBlocks p false s (seg ++ pre) t = replayBlocks p false s seg t := by
  rw [replayBlocks_eq_loop, replayBlocks_eq_loop]
  have hl : replayLoop p false t s ((seg ++ pre).reverse) =
      replayLoop p false t s seg.reverse := by
    rw [List.reverse_append]
    exact replayLoop_skip p t pre.reverse seg.reverse s
      (fun b hb => hpre b (List.mem_reverse.mp hb))
  rw [hl]

/-- Witness for C6: state at slot 10, segment `[block@12]` extended by
redundant oldest blocks at slots 9 and 8. -/
theorem C6_redundant_prefix_idempotent_witness :
    replayBlocks tracePrim false ⟨10, [], []⟩
      ([⟨12, 0, 212, false⟩] ++ [⟨9, 0, 209, false⟩, ⟨8, 0, 208, false⟩]) 12 =
    replayBlocks tracePrim false ⟨10, [], []⟩ [⟨12, 0, 212, false⟩] 12 :=
  C6_redundant_prefix_idempotent tracePrim ⟨10, [], []⟩ 12
    [⟨12, 0, 212, false⟩] [⟨9, 0, 209, false⟩, ⟨8, 0, 208, false⟩]
    (by simp [List.chain'_cons]) (by decide)

/-- C7: `advance_slots` boundary contract: a nil state fails with
`UnknownState`; for a non-nil state it fails with `SlotRegression`
exactly when the target is below the state slot (assuming the opaque
slot-advance primitive does not itself emit that core error kind); and
at `target = state.slot()` it returns the input state unchanged, for
every primitive — so the transition primitive is not involved. -/
theorem C7_advance_slots_contract (p : Prim)
    (hp : ∀ c s t, p.processSlotsCore c s t ≠ .error .slotRegression) :
    (∀ c t, ReplayProcessSlots p c none t = .error .unknownState) ∧
    (∀ c s t, ReplayProcessSlots p c (some s) t = .error .slotRegression ↔ t < s.slot) ∧
    (∀ c s, ReplayProcessSlots p c (some s) s.slot = .ok s) := by
  refine ⟨fun c t => rfl, ?_, ?_⟩
  · intro c s t
    constructor
    · intro h
      simp only [ReplayProcessSlots] at h
      split at h
      · assumption
      · split at h
        · exact absurd h (by simp)
        · exact absurd h (hp c s t)
    · intro h
      simp only [ReplayProcessSlots]
      rw [if_pos h]
  · intro c s
    simp [ReplayProcessSlots]

/-- Witness for C7 at the tracing primitives: nil state, a regressing
target 2 against slot 6, and the no-op at slot 6. -/
theorem C7_advance_slots_contract_witness :
    (ReplayProcessSlots tracePrim false none 4 = .error .unknownState) ∧
    ((ReplayProcessSlots tracePrim true (some ⟨6, [], []⟩) 2 = .error .slotRegression) ↔
      2 < 6) ∧
    (ReplayProcessSlots tracePrim false (some ⟨6, [], []⟩) 6 = .ok ⟨6, [], []⟩) := by
  have h := C7_advance_slots_contract tracePrim tracePrim_no_slotRegression
  exact ⟨h.1 false 4, h.2.1 true ⟨6, [], []⟩ 2, h.2.2 false ⟨6, [], []⟩⟩

/-- C10: whenever `replay` succeeds, the returned slot is at least the
target (assuming the opaque slot-advance lands exactly on its
requested slot), but not necessarily equal: a block whose slot exceeds
the target is still applied (no comparison against the target), and in
that case the state comes back strictly beyond the target with no
trailing advance — concretely, from slot 10 over `[block@30]` with
target 20 the result sits at slot 30 and the advance trace shows only
the advance to 30, none to 20. -/
theorem C10_target_lower_bound_overshoot :
    (∀ p : Prim, (∀ c s t s2, p.processSlotsCore c s t = .ok s2 → s2.slot = t) →
      ∀ c (s : RState) (signed : List Block) (t : Nat) (s2 : RState),
        replayBlocks p c s signed t = .ok s2 → t ≤ s2.slot) ∧
    (replayBlocks tracePrim false ⟨10, [], []⟩ [⟨30, 0, 130, false⟩] 20 =
      .ok ⟨30, [30], [(10, 30)]⟩ ∧ 20 < 30) := by
  constructor
  · intro p hsc c s signed t s2 h
    cases hm : replayLoop p c t s signed.reverse with
    | error e =>
      rw [replayBlocks_of_loop_err p c s signed t e hm] at h
      exact absurd h (by simp)
    | ok s1 =>
      rw [replayBlocks_of_loop_ok p c s signed t s1 hm] at h
      by_cases h1 : s1.slot < t
      · rw [if_pos h1] at h
        simp only [ReplayProcessSlots] at h
        split at h
        · exact absurd h (by simp)
        · split at h
          · injection h with h
            subst h
            next heq => exact Nat.le_of_eq heq.symm
          · exact Nat.le_of_eq (hsc c s1 t s2 h).symm
      · rw [if_neg h1] at h
        injection h with h
        subst h
        exact Nat.le_of_not_lt h1
  · exact ⟨rfl, by decide⟩

/-- Witness for C10's general bound at the tracing primitives. -/
theorem C10_target_lower_bound_overshoot_witness : 20 ≤ 30 :=
  C10_target_lower_bound_overshoot.1 tracePrim tracePrim_sc_exact
    false ⟨10, [], []⟩ [⟨30, 0, 130, false⟩] 20 ⟨30, [30], [(10, 30)]⟩ rfl

/-- C1 counterexample: the claim promises that for every valid range
and terminal root present in the queried batch the load returns a
sequence; here the range `[0, 5]` is valid and the terminal root 7 is
present in the batch (it is the root of the block at index 0), yet
`loadBlocks` fails with `TerminalNotFound`, because the terminal does
not sit at the narrowed end boundary. -/
theorem C1_counterexample :
    loadBlocks false 0 5 7 dbC1cx = .error .terminalNotFound ∧
    (7 : Root) ∈ [7, 8] :=
  ⟨rfl, by decide⟩

/-- C1 amended: whenever `loadBlocks` does return a sequence (the
terminal root survives at the narrowed boundary) over a consistent
batch, the sequence is nonempty, its head's root is the requested
terminal root, and every consecutive pair is parent-linked — sibling
candidates are skipped, not an error. -/
theorem C1_amended (s e r : Nat) (db : DB) (bs : List Block) (rs : List Root)
    (hrange : s ≤ e) (hdb : db s e = .ok (bs, rs)) (hlen : bs.length = rs.length)
    (hroots : ∀ i, i < bs.length → rootAt rs i = (bs.getD i default).root)
    (hbs : bs ≠ []) (seg : List Block)
    (hok : loadBlocks false s e r db = .ok seg) :
    seg ≠ [] ∧ (seg.headD default).root = r ∧
    List.Chain' (fun a b => a.parentRoot = b.root) seg := by
  have hlen0 : bs.length ≠ 0 := fun h0 => hbs (List.length_eq_zero.mp h0)
  obtain ⟨L, hL, hle, hpos⟩ := narrowLen_ok bs rs r bs.length
  rw [loadBlocks_eq_post false s e r db bs rs hrange hdb,
    loadBlocksPost_ok_narrow false r bs rs L hlen hlen0 hL] at hok
  by_cases hb : rootAt rs (L - 1) = r
  · rw [if_neg (not_not_intro hb)] at hok
    have hL1 : 1 ≤ L := hpos (by omega)
    have hLlt : L - 1 < bs.length := by omega
    have hchain := chainFilter_chain bs rs hroots (L - 1)
      [bs.getD (L - 1) default] (by simp) (by omega)
      (List.chain'_singleton _) seg hok
    obtain ⟨out, hout, hne, hhd⟩ := chainFilter_ok bs rs (bs.getD (L - 1) default) (L - 1) []
    simp only [List.nil_append] at hout
    rw [hout] at hok
    injection hok with hok
    subst hok
    refine ⟨hne, ?_, hchain⟩
    rw [hhd, ← hroots (L - 1) hLlt, hb]
  · rw [if_pos hb] at hok
    exact absurd hok (by simp)

/-- Witness for C1 amended: the two-block chain batch, terminal root 6. -/
theorem C1_amended_witness :
    ([⟨2, 5, 6, false⟩, ⟨1, 99, 5, false⟩] : List Block) ≠ [] ∧
    (([⟨2, 5, 6, false⟩, ⟨1, 99, 5, false⟩] : List Block).headD default).root = 6 ∧
    List.Chain' (fun a b => a.parentRoot = b.root)
      ([⟨2, 5, 6, false⟩, ⟨1, 99, 5, false⟩] : List Block) :=
  C1_amended 0 5 6 dbC1w [⟨1, 99, 5, false⟩, ⟨2, 5, 6, false⟩] [5, 6]
    (by decide) rfl rfl (by decide) (by decide)
    [⟨2, 5, 6, false⟩, ⟨1, 99, 5, false⟩] rfl

/-- C2 counterexample: a batch of exactly two same-slot blocks whose
older one (root 21) is the terminal; the claim says the narrowing rule
reaches it and the load succeeds, but the narrowing loop only runs
while the window holds at least three entries, so `loadBlocks` fails
with `TerminalNotFound`. -/
theorem C2_counterexample :
    loadBlocks false 0 9 21 dbC2cx = .error .terminalNotFound ∧
    slotAt [⟨5, 4, 21, false⟩, ⟨5, 4, 22, false⟩] 0 =
      slotAt [⟨5, 4, 21, false⟩, ⟨5, 4, 22, false⟩] 1 ∧
    rootAt [21, 22] 0 = 21 :=
  ⟨rfl, rfl, rfl⟩

/-- C2 amended: same-slot fork ambiguity is resolved by the narrowing
loop `narrowLen` — which narrows only while the window holds at least
three entries whose two newest share a slot and whose newest root
differs from the terminal, dropping one entry per step and stopping
early (dropping a second entry) when the terminal root appears one
position below the new boundary.  The load fails with
`TerminalNotFound` exactly when the root at the narrowed boundary
still differs from the terminal; otherwise it succeeds with the
boundary block at the head.  A batch of exactly two same-slot blocks
whose older one is the terminal therefore fails. -/
theorem C2_amended (s e r : Nat) (db : DB) (bs : List Block) (rs : List Root) (L : Nat)
    (hrange : s ≤ e) (hdb : db s e = .ok (bs, rs)) (hlen : bs.length = rs.length)
    (hbs : bs ≠ [])
    (hL : narrowLen false bs rs r bs.length = .ok L) :
    (rootAt rs (L - 1) ≠ r → loadBlocks false s e r db = .error .terminalNotFound) ∧
    (rootAt rs (L - 1) = r → ∃ seg, loadBlocks false s e r db = .ok seg ∧ seg ≠ [] ∧
      seg.headD default = bs.getD (L - 1) default) := by
  have hlen0 : bs.length ≠ 0 := fun h0 => hbs (List.length_eq_zero.mp h0)
  have heq := loadBlocks_eq_post false s e r db bs rs hrange hdb
  rw [loadBlocksPost_ok_narrow false r bs rs L hlen hlen0 hL] at heq
  constructor
  · intro hne
    rw [heq, if_pos hne]
  · intro hb
    obtain ⟨out, hout, hne, hhd⟩ := chainFilter_ok bs rs (bs.getD (L - 1) default) (L - 1) []
    simp only [List.nil_append] at hout
    refine ⟨out, ?_, hne, hhd⟩
    rw [heq, if_neg (not_not_intro hb), hout]

/-- Witness for C2 amended: three same-slot siblings with the terminal
at index 0; narrowing yields window length 1 and the load succeeds
with that block at the head. -/
theorem C2_amended_witness :
    (rootAt [31, 32, 33] 0 ≠ 31 →
      loadBlocks false 0 9 31 dbC2w = .error .terminalNotFound) ∧
    (rootAt [31, 32, 33] 0 = 31 →
      ∃ seg, loadBlocks false 0 9 31 dbC2w = .ok seg ∧ seg ≠ [] ∧
        seg.headD default = bsC2w.getD 0 default) :=
  C2_amended 0 9 31 dbC2w bsC2w [31, 32, 33] 1 (by decide) rfl rfl (by decide) rfl

/-- `loadFinalizedBlocks` always succeeds with the finalized filter of
the batch whenever storage answers with an aligned batch — it performs
no range validation and no cancellation check. -/
lemma loadFinalizedBlocks_ok (c : Bool) (s e : Nat) (db : DB) (fin : Root → Bool)
    (bs : List Block) (rs : List Root)
    (hdb : db s e = .ok (bs, rs)) (hlen : bs.length = rs.length) :
    loadFinalizedBlocks c s e db fin =
      .ok (finalizedFilter fin ((bs.zip rs).reverse)) := by
  have h1 : loadFinalizedBlocks c s e db fin =
      if bs.length ≠ rs.length then .error .storeInconsistency
      else .ok (finalizedFilter fin ((bs.zip rs).reverse)) := by
    unfold loadFinalizedBlocks
    rw [hdb]
  rw [h1, if_neg (by omega)]

/-- C8 counterexample: the claim says both loaders reject an inverted
range with `InvalidRange`; but `loadFinalizedBlocks` with start 5 >
end 3 queries storage and returns the filtered batch instead of
failing. -/
theorem C8_counterexample :
    loadFinalizedBlocks false 5 3 dbC8cx (fun _ => true) = .ok [bC8cx] ∧
    (3 : Nat) < 5 :=
  ⟨rfl, by decide⟩

/-- C8 amended: `loadBlocks` fails with `InvalidRange` whenever
start > end, before consulting storage (for every storage oracle);
`loadFinalizedBlocks` performs no range validation — it queries
storage and returns the finalized filter of whatever batch storage
yields, for any range. -/
theorem C8_amended :
    (∀ (c : Bool) (s e r : Nat) (db : DB), e < s →
      loadBlocks c s e r db = .error .invalidRange) ∧
    (∀ (c : Bool) (s e : Nat) (db : DB) (fin : Root → Bool)
      (bs : List Block) (rs : List Root),
      db s e = .ok (bs, rs) → bs.length = rs.length →
      loadFinalizedBlocks c s e db fin =
        .ok (finalizedFilter fin ((bs.zip rs).reverse))) := by
  constructor
  · intro c s e r db h
    unfold loadBlocks
    rw [if_pos h]
  · intro c s e db fin bs rs hdb hlen
    exact loadFinalizedBlocks_ok c s e db fin bs rs hdb hlen

/-- Witness for C8 amended: an inverted range rejected by `loadBlocks`
and accepted (filtered normally) by `loadFinalizedBlocks`. -/
theorem C8_amended_witness :
    loadBlocks false 9 2 77 dbC8cx = .error .invalidRange ∧
    loadFinalizedBlocks false 6 3 dbC8cx (fun _ => true) =
      .ok (finalizedFilter (fun _ => true) (([bC8cx].zip [40]).reverse)) :=
  ⟨C8_amended.1 false 9 2 77 dbC8cx (by decide),
   C8_amended.2 false 6 3 dbC8cx (fun _ => true) [bC8cx] [40] rfl rfl⟩

/-- C9 counterexample: with the cancellation signal raised and a
nonempty batch, the per-block filtering loop of
`loadFinalizedBlocks` still runs to completion and returns the
filtered batch — it never aborts with `Cancelled`, contradicting the
claim that every listed loop observes the signal at its head. -/
theorem C9_counterexample :
    loadFinalizedBlocks true 0 9 dbC9cx (fun _ => true) = .ok [bC9cx] ∧
    loadFinalizedBlocks true 0 9 dbC9cx (fun _ => true) ≠ .error .cancelled :=
  ⟨rfl, fun h => Except.noConfusion h⟩

/-- C9 amended: the block loop of `replay` and the two scans of
`loadBlocks` observe the cancellation signal at each iteration head
and abort with `Cancelled` (first conjunct: nonempty segment; second:
the narrowing loop condition holds at entry; third: narrowing does not
run, the terminal matches the boundary, and the batch holds at least
two entries so the parent-chain scan runs) — but the filtering loop of
`loadFinalizedBlocks` performs no such check and completes normally
under a raised signal. -/
theorem C9_amended :
    (∀ (p : Prim) (s : RState) (b : Block) (rest : List Block) (t : Nat),
      replayBlocks p true s (b :: rest) t = .error .cancelled) ∧
    (∀ (s e r : Nat) (db : DB) (bs : List Block) (rs : List Root),
      s ≤ e → db s e = .ok (bs, rs) → bs.length = rs.length →
      3 ≤ bs.length → slotAt bs (bs.length - 1) = slotAt bs (bs.length - 2) →
      rootAt rs (bs.length - 1) ≠ r →
      loadBlocks true s e r db = .error .cancelled) ∧
    (∀ (s e r : Nat) (db : DB) (bs : List Block) (rs : List Root),
      s ≤ e → db s e = .ok (bs, rs) → bs.length = rs.length →
      ¬(3 ≤ bs.length ∧ slotAt bs (bs.length - 1) = slotAt bs (bs.length - 2) ∧
          rootAt rs (bs.length - 1) ≠ r) →
      rootAt rs (bs.length - 1) = r → 2 ≤ bs.length →
      loadBlocks true s e r db = .error .cancelled) ∧
    (∀ (s e : Nat) (db : DB) (fin : Root → Bool) (bs : List Block) (rs : List Root),
      db s e = .ok (bs, rs) → bs.length = rs.length →
      loadFinalizedBlocks true s e db fin =
        .ok (finalizedFilter fin ((bs.zip rs).reverse))) := by
  refine ⟨?_, ?_, ?_, ?_⟩
  · intro p s b rest t
    exact replayBlocks_of_loop_err p true s (b :: rest) t .cancelled
      (replayLoop_cancelled p t _ s (by simp))
  · intro s e r db bs rs hrange hdb hlen h3 hslot hroot
    have hlen0 : bs.length ≠ 0 := by omega
    obtain ⟨m, hm⟩ : ∃ m, bs.length = m + 1 := ⟨bs.length - 1, by omega⟩
    have e1 : bs.length - 1 = m := by omega
    have e2 : bs.length - 2 = m - 1 := by omega
    rw [e1] at hroot
    rw [e1, e2] at hslot
    have hnarrow : narrowLen true bs rs r bs.length = .error .cancelled := by
      rw [hm]
      simp only [narrowLen, if_pos (show 3 ≤ m + 1 ∧ slotAt bs m = slotAt bs (m - 1) ∧
        rootAt rs m ≠ r from ⟨by omega, hslot, hroot⟩)]
      rfl
    rw [loadBlocks_eq_post true s e r db bs rs hrange hdb,
      loadBlocksPost_err_narrow true r bs rs .cancelled hlen hlen0 hnarrow]
  · intro s e r db bs rs hrange hdb hlen hnc hb h2
    have hlen0 : bs.length ≠ 0 := by omega
    obtain ⟨m, hm⟩ : ∃ m, bs.length = m + 1 := ⟨bs.length - 1, by omega⟩
    have e1 : bs.length - 1 = m := by omega
    have e2 : bs.length - 2 = m - 1 := by omega
    rw [e1] at hb
    rw [e1, e2] at hnc
    rw [hm] at hnc
    have hnarrow : narrowLen true bs rs r bs.length = .ok bs.length := by
      rw [hm]
      simp only [narrowLen, if_neg hnc]
    rw [loadBlocks_eq_post true s e r db bs rs hrange hdb,
      loadBlocksPost_ok_narrow true r bs rs bs.length hlen hlen0 hnarrow]
    have e3 : bs.length - 1 = m := by omega
    rw [e3, if_neg (not_not_intro hb)]
    obtain ⟨k, hk⟩ : ∃ k, m = k + 1 := ⟨m - 1, by omega⟩
    rw [hk]
    rfl
  · intro s e db fin bs rs hdb hlen
    exact loadFinalizedBlocks_ok true s e db fin bs rs hdb hlen

/-- Witness for C9 amended: concrete cancelled runs of each loop — the
replay loop, the narrowing scan (three same-slot siblings), the
parent-chain scan (two-block chain, terminal at the boundary), and the
finalized filter completing normally. -/
theorem C9_amended_witness :
    replayBlocks tracePrim true ⟨1, [], []⟩ [⟨2, 0, 90, false⟩] 5 = .error .cancelled ∧
    loadBlocks true 0 9 61 dbC9w1 = .error .cancelled ∧
    loadBlocks true 0 9 72 dbC9w2 = .error .cancelled ∧
    loadFinalizedBlocks true 0 9 dbC9w2 (fun _ => true) =
      .ok (finalizedFilter (fun _ => true)
        (([⟨5, 4, 71, false⟩, ⟨6, 71, 72, false⟩].zip [71, 72]).reverse)) :=
  ⟨C9_amended.1 tracePrim ⟨1, [], []⟩ ⟨2, 0, 90, false⟩ [] 5,
   C9_amended.2.1 0 9 61 dbC9w1 _ _ (by decide) rfl rfl (by decide) rfl (by decide),
   C9_amended.2.2.1 0 9 72 dbC9w2 _ _ (by decide) rfl rfl (by decide) rfl (by decide),
   C9_amended.2.2.2 0 9 dbC9w2 (fun _ => true) _ _ rfl rfl⟩

end Stategen
